import Mathlib

/-!
Verification of the transcript-to-subtitle core of the yt-tool repository
(src/create_subtitle.py and the duplicated helpers in src/subtitle_service.py).

Times are modelled as rationals (the Python code uses floats only for
arithmetic that is exact at the granularity the properties talk about);
Python dicts with keys word/start/end become the structure Word; the
global random generator becomes an explicit stream of draws d : Nat -> Nat,
and random.randint a b is modelled as clamping the draw into [a, b]
(failing, as CPython does with a ValueError, when a > b).
-/

/-- A transcript word: Python dict with keys word, start, end
(src/create_subtitle.py, clean_words / create_ass_file). -/
structure Word where
  word : String
  start : ℚ
  «end» : ℚ
deriving Repr, DecidableEq

/-- Python str.strip(): remove leading and trailing whitespace.
Defined structurally over the character list so that it evaluates in the
kernel (the stdlib String.trim is defined by well-founded recursion). -/
def pyStrip (s : String) : String :=
  ⟨((s.data.dropWhile Char.isWhitespace).reverse.dropWhile Char.isWhitespace).reverse⟩

/-- Python str.rstrip(): remove trailing whitespace. -/
def pyRStrip (s : String) : String :=
  ⟨(s.data.reverse.dropWhile Char.isWhitespace).reverse⟩

/-- Python str.upper(). -/
def pyUpper (s : String) : String :=
  ⟨s.data.map Char.toUpper⟩

/-- Python s[0] (only used on non-empty strings). -/
def strFront (s : String) : Char :=
  s.data.headD (Char.ofNat 0)

/-- Python str.endswith. -/
def strEndsWith (s suffix : String) : Bool :=
  suffix.data.isSuffixOf s.data

/-- The set punctuation_starters of clean_words
(src/create_subtitle.py line 39); Char.ofNat 39 is the ASCII apostrophe. -/
def punctuationStarters : List Char :=
  [',', '.', '?', '!', ';', ':', Char.ofNat 39]

/-- In-place merge into the previously accepted word
(src/create_subtitle.py lines 52-54 and 60-62): the last accepted entry
gets its text right-trimmed and concatenated with the current trimmed text,
and its end time replaced by the current word's end time. -/
def mergeLast : List Word → String → ℚ → List Word
  | [], _, _ => []
  | [p], w, e => [{ p with word := pyRStrip p.word ++ w, «end» := e }]
  | p :: ps, w, e => p :: mergeLast ps w e

/-- The loop body of clean_words (src/create_subtitle.py lines 41-65),
with the accumulated cleaned list passed explicitly. -/
def cleanWordsGo : List Word → List Word → List Word
  | cleaned, [] => cleaned
  | cleaned, wi :: rest =>
    let w := pyStrip wi.word
    if w = "" then
      cleanWordsGo cleaned rest
    else if strFront w ∈ punctuationStarters ∧ cleaned ≠ [] then
      cleanWordsGo (mergeLast cleaned w wi.«end») rest
    else if cleaned ≠ [] ∧
        strEndsWith (pyRStrip (cleaned.getLastD ⟨"", 0, 0⟩).word) "$" = true ∧
        ((strFront w).isDigit = true ∨ strFront w ∈ punctuationStarters) then
      cleanWordsGo (mergeLast cleaned w wi.«end») rest
    else
      cleanWordsGo (cleaned ++ [wi]) rest

/-- clean_words (src/create_subtitle.py lines 20-68). -/
def cleanWords (words : List Word) : List Word :=
  if words = [] then words else cleanWordsGo [] words

/-- The input word sequence of the currency-merge scenario in the spec. -/
def c2Input : List Word :=
  [⟨"the", 0, 3/10⟩, ⟨"$", 3/10, 2/5⟩, ⟨"1", 2/5, 1/2⟩,
   ⟨",", 1/2, 1/2⟩, ⟨"000", 1/2, 7/10⟩, ⟨"fee", 4/5, 1⟩]

/-- Result of the chunking while-loop (src/create_subtitle.py lines 130-137),
run with an explicit amount of fuel. -/
inductive ChunkOut where
  | ok : List (List Word) → ChunkOut
  | err : ChunkOut
  | spin : ChunkOut
deriving Repr, DecidableEq

/-- Python random.randint(a, b) with the drawn value abstracted as an
arbitrary natural r clamped into [a, b]; raises ValueError (none) when
a > b, exactly as CPython does. -/
def randint (a b r : ℕ) : Option ℕ :=
  if b < a then none else some (max a (min b r))

/-- The chunking while-loop of create_ass_file
(src/create_subtitle.py lines 130-137): while i < len(words), draw
chunk_size = randint(a, b), take words[i:i+chunk_size], append it when
non-empty, advance i by chunk_size.  The draw stream d plays the role of
the global random generator (k counts the draws made so far); fuel bounds
the number of iterations, with ChunkOut.spin meaning the loop would still
be running when the fuel runs out. -/
def chunksGo (d : ℕ → ℕ) (a b : ℕ) (w : List Word) :
    ℕ → ℕ → ℕ → List (List Word) → ChunkOut
  | 0, i, _, acc => if i < w.length then .spin else .ok acc
  | fuel + 1, i, k, acc =>
    if i < w.length then
      match randint a b (d k) with
      | none => .err
      | some size =>
        chunksGo d a b w fuel (i + size) (k + 1)
          (if ((w.drop i).take size).isEmpty then acc
           else acc ++ [(w.drop i).take size])
    else .ok acc

/-- The whole chunking phase, started at i = 0 with w.length fuel (when
every chunk size is at least 1 the loop runs at most w.length times). -/
def chunkWords (d : ℕ → ℕ) (a b : ℕ) (w : List Word) : ChunkOut :=
  chunksGo d a b w w.length 0 0 []

/-- The highlight-style override written before the highlighted word
(src/create_subtitle.py line 173). -/
def hlOn : String := "\x7b\\rHighlight\x7d"

/-- The reset-to-default override written after the highlighted word. -/
def hlOff : String := "\x7b\\rDefault\x7d"

/-- word_info.word.strip().upper() (src/create_subtitle.py line 170). -/
def renderWordText (w : Word) : String := pyUpper (pyStrip w.word)

/-- Python sep.join(parts). -/
def joinSep (sep : String) : List String → String
  | [] => ""
  | [s] => s
  | s :: rest => s ++ sep ++ joinSep sep rest

/-- The inner rendering loop over enumerate(chunk)
(src/create_subtitle.py lines 168-176): the word at position hi is wrapped
in the highlight toggles, every other word is rendered plain. -/
def cueTextGo (hi : ℕ) : ℕ → List Word → List String
  | _, [] => []
  | idx, w :: ws =>
    (if idx = hi then hlOn ++ renderWordText w ++ hlOff else renderWordText w)
      :: cueTextGo hi (idx + 1) ws

/-- The Text field of the dialogue event for highlight position hi
(src/create_subtitle.py lines 167-178). -/
def cueText (chunk : List Word) (hi : ℕ) : String :=
  joinSep " " (cueTextGo hi 0 chunk)

/-- chunks[chunk_idx + 1][0].start when a following chunk exists
(src/create_subtitle.py lines 142-145). -/
def nextChunkStart (chunks : List (List Word)) (ci : ℕ) : Option ℚ :=
  (chunks[ci + 1]?.bind List.head?).map Word.start

/-- The cue end time for highlight position h of a chunk
(src/create_subtitle.py lines 150-162): the last word of a chunk extends
to the next chunk's first start when one exists and otherwise keeps its
own end; any other word extends to the next word's start within the
chunk.  The none fallback of the second match is unreachable whenever
h < chunk.length. -/
def cueEndTime (chunk : List Word) (h : ℕ) (w : Word) (nextStart : Option ℚ) : ℚ :=
  if h = chunk.length - 1 then
    match nextStart with
    | some t => t
    | none => w.«end»
  else
    match chunk[h + 1]? with
    | some nw => nw.start
    | none => w.«end»

/-- Zero left-padding to width n of a non-negative numeric field, as done
by the Python format specifications 02d and 05.2f. -/
def zfill (n : ℕ) (s : String) : String :=
  ⟨List.replicate (n - s.length) '0' ++ s.data⟩

/-- format_time_ass (src/create_subtitle.py lines 12-17): h:mm:ss.cc.
Python floor-division and modulus on a float map to rational floor
arithmetic; the rounding of the seconds field to two decimal places by
the 05.2f format is modelled as rounding to the nearest centisecond. -/
def formatTimeAss (q : ℚ) : String :=
  let h : ℤ := ⌊q / 3600⌋
  let m : ℤ := ⌊(q - 3600 * ((⌊q / 3600⌋ : ℤ) : ℚ)) / 60⌋
  let s : ℚ := q - 60 * ((⌊q / 60⌋ : ℤ) : ℚ)
  let cs : ℤ := round (100 * s)
  Int.repr h ++ ":" ++ zfill 2 (Int.repr m) ++ ":" ++
    zfill 5 (Int.repr (cs / 100) ++ "." ++ zfill 2 (Int.repr (cs % 100)))

/-- The duplicated format_time_ass of src/subtitle_service.py lines 22-27,
whose body is character-for-character the same as the one in
src/create_subtitle.py. -/
def formatTimeAssService (q : ℚ) : String :=
  let h : ℤ := ⌊q / 3600⌋
  let m : ℤ := ⌊(q - 3600 * ((⌊q / 3600⌋ : ℤ) : ℚ)) / 60⌋
  let s : ℚ := q - 60 * ((⌊q / 60⌋ : ℤ) : ℚ)
  let cs : ℤ := round (100 * s)
  Int.repr h ++ ":" ++ zfill 2 (Int.repr m) ++ ":" ++
    zfill 5 (Int.repr (cs / 100) ++ "." ++ zfill 2 (Int.repr (cs % 100)))

/-- One Dialogue event line (src/create_subtitle.py line 179). -/
def dialogueLine (chunk : List Word) (h : ℕ) (w : Word) (nextStart : Option ℚ) : String :=
  "Dialogue: 0," ++ formatTimeAss w.start ++ "," ++
    formatTimeAss (cueEndTime chunk h w nextStart) ++ ",Default,,0,0,0,," ++
    cueText chunk h

/-- The loop over enumerate(chunk) emitting one dialogue line per
highlight position (src/create_subtitle.py lines 147-179). -/
def chunkCueLinesGo (chunk : List Word) (nextStart : Option ℚ) :
    ℕ → List Word → List String
  | _, [] => []
  | hIdx, w :: ws =>
    dialogueLine chunk hIdx w nextStart :: chunkCueLinesGo chunk nextStart (hIdx + 1) ws

/-- All dialogue lines of one chunk. -/
def chunkCueLines (chunk : List Word) (nextStart : Option ℚ) : List String :=
  chunkCueLinesGo chunk nextStart 0 chunk

/-- The loop over enumerate(chunks) (src/create_subtitle.py lines 140-179). -/
def dialogueLinesGo (chunks : List (List Word)) : ℕ → List (List Word) → List String
  | _, [] => []
  | ci, c :: rest =>
    chunkCueLines c (nextChunkStart chunks ci) ++ dialogueLinesGo chunks (ci + 1) rest

/-- All dialogue lines of the document. -/
def dialogueLines (chunks : List (List Word)) : List String :=
  dialogueLinesGo chunks 0 chunks

/-- The styling parameters of create_ass_file
(src/create_subtitle.py lines 76-81). -/
structure StyleConfig where
  fontColor : String
  outlineColor : String
  highlightColor : String
  fontName : String
  fontSize : ℕ
  marginV : ℕ
deriving Repr, DecidableEq

/-- The Default style line (src/create_subtitle.py line 113). -/
def styleDefaultLine (cfg : StyleConfig) : String :=
  "Style: Default," ++ cfg.fontName ++ "," ++ Nat.repr cfg.fontSize ++ "," ++
    cfg.fontColor ++ "," ++ cfg.fontColor ++ "," ++ cfg.outlineColor ++ "," ++
    cfg.outlineColor ++ ",-1,0,1,2,0,2,10,10," ++ Nat.repr cfg.marginV ++ ",1"

/-- The Highlight style line (src/create_subtitle.py line 115). -/
def styleHighlightLine (cfg : StyleConfig) : String :=
  "Style: Highlight," ++ cfg.fontName ++ "," ++ Nat.repr cfg.fontSize ++ "," ++
    cfg.fontColor ++ "," ++ cfg.fontColor ++ "," ++ cfg.highlightColor ++ "," ++
    cfg.highlightColor ++ ",-1,0,3,8,0,2,10,10," ++ Nat.repr cfg.marginV ++ ",1"

/-- Every line written before any word is processed
(src/create_subtitle.py lines 101-120): script info, styles section and
the events format line. -/
def headerLines (cfg : StyleConfig) : List String :=
  ["[Script Info]", "ScriptType: v4.00+", "PlayResX: 1080", "PlayResY: 1920", "",
   "[V4+ Styles]",
   "Format: Name, Fontname, Fontsize, PrimaryColour, SecondaryColour, OutlineColour, BackColour, Bold, Italic, BorderStyle, Outline, Shadow, Alignment, MarginL, MarginR, MarginV, Encoding",
   styleDefaultLine cfg, styleHighlightLine cfg, "",
   "[Events]",
   "Format: Layer, Start, End, Style, Name, MarginL, MarginR, MarginV, Effect, Text"]

/-- How a run of create_ass_file can fail to produce a complete document. -/
inductive RunError where
  | valueError
  | nonTermination
deriving Repr, DecidableEq

/-- create_ass_file (src/create_subtitle.py lines 71-182) as the list of
lines written to the file, paired with the error that interrupts the run,
if any: RunError.valueError is the ValueError raised by random.randint
when chunk_size_min > chunk_size_max (at that point the header has
already been written and the words cleaned), and RunError.nonTermination
marks a run of the chunking loop that fails to finish (possible when a
drawn chunk size is 0). -/
def createAssFile (words : List Word) (cfg : StyleConfig) (a b : ℕ) (d : ℕ → ℕ) :
    List String × Option RunError :=
  if words = [] then (headerLines cfg, none)
  else
    match chunkWords d a b (cleanWords words) with
    | .ok chunks => (headerLines cfg ++ dialogueLines chunks, none)
    | .err => (headerLines cfg, some .valueError)
    | .spin => (headerLines cfg, some .nonTermination)

/-- The placeholder record read when an address is out of range; never
reached on well-formed runs of the heap model below. -/
def defaultWord : Word := ⟨"", 0, 0⟩

/-- clean_words again, now over an explicit store of word records so that
aliasing is observable: the caller's records sit in the store, the input
is the list of their addresses, the cleaned list holds addresses of
accepted entries, appending allocates a copy of the current record at a
fresh address (word_info.copy() on src/create_subtitle.py line 65), and
the in-place merges (lines 52-54 and 60-62) write through the address of
the last accepted entry. -/
def cleanWordsHeapGo : List Word → List ℕ → List ℕ → List Word × List ℕ
  | store, [], cleaned => (store, cleaned)
  | store, addr :: rest, cleaned =>
    let wi := store.getD addr defaultWord
    let w := pyStrip wi.word
    if w = "" then
      cleanWordsHeapGo store rest cleaned
    else if strFront w ∈ punctuationStarters ∧ cleaned ≠ [] then
      let prevAddr := cleaned.getLastD 0
      let prev := store.getD prevAddr defaultWord
      cleanWordsHeapGo
        (store.set prevAddr { prev with word := pyRStrip prev.word ++ w, «end» := wi.«end» })
        rest cleaned
    else if cleaned ≠ [] ∧
        strEndsWith (pyRStrip (store.getD (cleaned.getLastD 0) defaultWord).word) "$" = true ∧
        ((strFront w).isDigit = true ∨ strFront w ∈ punctuationStarters) then
      let prevAddr := cleaned.getLastD 0
      let prev := store.getD prevAddr defaultWord
      cleanWordsHeapGo
        (store.set prevAddr { prev with word := pyRStrip prev.word ++ w, «end» := wi.«end» })
        rest cleaned
    else
      cleanWordsHeapGo (store ++ [wi]) rest (cleaned ++ [store.length])

/-- A call clean_words(words) in the heap model: the store initially
holds exactly the caller's records and the input addresses are 0..n-1. -/
def cleanWordsHeap (words : List Word) : List Word × List ℕ :=
  cleanWordsHeapGo words (List.range words.length) []

/-- Chunk-size bounds of the chunk list, as the spec states them: every
chunk but the last has length in [a, b], and the final chunk has length
at least 1 and at most b. -/
def sizesOk (a b : ℕ) : List (List Word) → Prop
  | [] => True
  | [c] => 1 ≤ c.length ∧ c.length ≤ b
  | c :: rest => (a ≤ c.length ∧ c.length ≤ b) ∧ sizesOk a b rest

/-- A configuration with the default parameter values of create_ass_file
(src/create_subtitle.py lines 76-81), used by the concrete instances. -/
def sampleCfg : StyleConfig :=
  ⟨"&H00FFFFFF", "&H00FF0080", "&H00FF0080", "Poppins", 80, 600⟩

/-- Four words with word-invariant-respecting integer times, used by the
concrete instances. -/
def sampleWords : List Word :=
  [⟨"alpha", 0, 1⟩, ⟨"bravo", 1, 2⟩, ⟨"charlie", 2, 3⟩, ⟨"delta", 3, 4⟩]

/-- The sample words grouped into two chunks of two, used by the concrete
instances. -/
def sampleChunks : List (List Word) :=
  [[⟨"alpha", 0, 1⟩, ⟨"bravo", 1, 2⟩], [⟨"charlie", 2, 3⟩, ⟨"delta", 3, 4⟩]]

lemma chunksGo_append (d : ℕ → ℕ) (a b : ℕ) (w : List Word) :
    ∀ (fuel i k : ℕ) (acc : List (List Word)),
      chunksGo d a b w fuel i k acc =
        match chunksGo d a b w fuel i k [] with
        | .ok r => .ok (acc ++ r)
        | .err => .err
        | .spin => .spin := by
  intro fuel
  induction fuel with
  | zero =>
    intro i k acc
    by_cases h : i < w.length <;> simp [chunksGo, h]
  | succ fuel ih =>
    intro i k acc
    by_cases h : i < w.length
    · simp only [chunksGo, h, if_true]
      cases hr : randint a b (d k) with
      | none => rfl
      | some size =>
        cases he : ((w.drop i).take size).isEmpty with
        | true =>
          simp only [he, if_true]
          exact ih (i + size) (k + 1) acc
        | false =>
          simp only [he, Bool.false_eq_true, if_false, List.nil_append]
          rw [ih (i + size) (k + 1) (acc ++ [(w.drop i).take size]),
            ih (i + size) (k + 1) ([(w.drop i).take size])]
          cases chunksGo d a b w fuel (i + size) (k + 1) [] <;> simp
    · simp [chunksGo, h]

lemma sizesOk_head_length_pos {a b : ℕ} (ha : 1 ≤ a) {c : List Word}
    {rest : List (List Word)} (h : sizesOk a b (c :: rest)) : 1 ≤ c.length := by
  cases rest with
  | nil => exact h.1
  | cons r rs => exact le_trans ha h.1.1

lemma chunksGo_spec (d : ℕ → ℕ) (a b : ℕ) (w : List Word)
    (ha : 1 ≤ a) (hab : a ≤ b) :
    ∀ (fuel i k : ℕ), w.length - i ≤ fuel →
      ∃ rest, chunksGo d a b w fuel i k [] = .ok rest ∧
        rest.flatten = w.drop i ∧ sizesOk a b rest := by
  intro fuel
  induction fuel with
  | zero =>
    intro i k hfuel
    have hle : w.length ≤ i := by omega
    refine ⟨[], ?_, ?_, trivial⟩
    · simp [chunksGo, Nat.not_lt.mpr hle]
    · simp [List.drop_eq_nil_of_le hle]
  | succ fuel ih =>
    intro i k hfuel
    by_cases h : i < w.length
    · have hr : randint a b (d k) = some (max a (min b (d k))) := by
        simp [randint, Nat.not_lt.mpr hab]
      have hs1 : 1 ≤ max a (min b (d k)) := le_trans ha (le_max_left _ _)
      have hs2 : max a (min b (d k)) ≤ b := max_le hab (min_le_left _ _)
      have hlen : ((w.drop i).take (max a (min b (d k)))).length =
          min (max a (min b (d k))) (w.length - i) := by
        simp [List.length_take]
      have hne : ((w.drop i).take (max a (min b (d k)))).isEmpty = false := by
        rw [List.isEmpty_eq_false_iff_exists_mem]
        have : 0 < ((w.drop i).take (max a (min b (d k)))).length := by omega
        obtain ⟨x, hx⟩ := List.exists_mem_of_length_pos this
        exact ⟨x, hx⟩
      obtain ⟨rest', heq, hflat, hsz⟩ :=
        ih (i + max a (min b (d k))) (k + 1) (by omega)
      refine ⟨(w.drop i).take (max a (min b (d k))) :: rest', ?_, ?_, ?_⟩
      · simp only [chunksGo, h, if_true, hr, hne, Bool.false_eq_true, if_false,
          List.nil_append]
        rw [chunksGo_append d a b w fuel _ _ ([(w.drop i).take (max a (min b (d k)))]), heq]
        simp
      · rw [List.flatten_cons, hflat, ← List.drop_drop, List.take_append_drop]
      · cases rest' with
        | nil =>
          simp only [sizesOk]
          omega
        | cons c rs =>
          have hc1 : 1 ≤ c.length := sizesOk_head_length_pos ha hsz
          have hfit : i + max a (min b (d k)) ≤ w.length := by
            by_contra hgt
            have hnil : w.drop (i + max a (min b (d k))) = [] :=
              List.drop_eq_nil_of_le (by omega)
            rw [hnil, List.flatten_cons] at hflat
            have hc0 : c = [] := (List.append_eq_nil.mp hflat).1
            simp [hc0] at hc1
          have hgoal : sizesOk a b
              ((w.drop i).take (max a (min b (d k))) :: c :: rs) =
              ((a ≤ ((w.drop i).take (max a (min b (d k)))).length ∧
                ((w.drop i).take (max a (min b (d k)))).length ≤ b) ∧
               sizesOk a b (c :: rs)) := rfl
          rw [hgoal]
          refine ⟨⟨?_, ?_⟩, hsz⟩
          · omega
          · omega
    · refine ⟨[], ?_, ?_, trivial⟩
      · simp [chunksGo, h]
      · simp [List.drop_eq_nil_of_le (Nat.not_lt.mp h)]

/-- C3: for every word list and integer bounds with
1 ≤ chunk_size_min ≤ chunk_size_max, the chunking loop of create_ass_file
partitions the words: concatenating the chunks in order reproduces the
input sequence exactly, every chunk except possibly the last has length
in the configured interval, and the final chunk has length at least 1 and
at most chunk_size_max. -/
theorem chunker_coverage (d : ℕ → ℕ) (a b : ℕ) (w : List Word)
    (ha : 1 ≤ a) (hab : a ≤ b) :
    ∃ chunks, chunkWords d a b w = ChunkOut.ok chunks ∧
      chunks.flatten = w ∧ sizesOk a b chunks := by
  obtain ⟨rest, h1, h2, h3⟩ := chunksGo_spec d a b w ha hab w.length 0 0 (by omega)
  exact ⟨rest, h1, by simpa using h2, h3⟩

/-- C3 witness: with bounds [1, 2] and a fixed draw stream, the chunking
of the four sample words is a partition with the stated size bounds. -/
theorem chunker_coverage_witness :
    (1 ≤ 1 ∧ 1 ≤ 2) ∧
      ∃ chunks, chunkWords (fun _ => 2) 1 2 sampleWords = ChunkOut.ok chunks ∧
        chunks.flatten = sampleWords ∧ sizesOk 1 2 chunks :=
  ⟨⟨le_refl 1, by omega⟩, chunker_coverage (fun _ => 2) 1 2 sampleWords (le_refl 1) (by omega)⟩

/-- C10: for every finite word list and bounds with
1 ≤ chunk_size_min ≤ chunk_size_max, the chunking while-loop terminates
(the run with words.length fuel already reaches the loop exit): every
drawn chunk size is at least chunk_size_min ≥ 1, so the cursor strictly
advances at every iteration. -/
theorem chunk_loop_terminates (d : ℕ → ℕ) (a b : ℕ) (w : List Word)
    (ha : 1 ≤ a) (hab : a ≤ b) :
    ∃ chunks, chunkWords d a b w = ChunkOut.ok chunks := by
  obtain ⟨rest, h1, -, -⟩ := chunksGo_spec d a b w ha hab w.length 0 0 (by omega)
  exact ⟨rest, h1⟩

/-- C10 witness: the loop terminates on the sample words with bounds [2, 3]. -/
theorem chunk_loop_terminates_witness :
    (1 ≤ 2 ∧ 2 ≤ 3) ∧
      ∃ chunks, chunkWords (fun _ => 3) 2 3 sampleWords = ChunkOut.ok chunks :=
  ⟨⟨by omega, by omega⟩, chunk_loop_terminates (fun _ => 3) 2 3 sampleWords (by omega) (by omega)⟩

lemma chunkCueLinesGo_getElem (chunk : List Word) (ns : Option ℚ) :
    ∀ (ws : List Word) (idx j : ℕ) (w : Word), ws[j]? = some w →
      (chunkCueLinesGo chunk ns idx ws)[j]? =
        some (dialogueLine chunk (idx + j) w ns) := by
  intro ws
  induction ws with
  | nil => intro idx j w hj; simp at hj
  | cons x xs ih =>
    intro idx j w hj
    cases j with
    | zero =>
      have hx : x = w := by simpa using hj
      subst hx
      simp [chunkCueLinesGo]
    | succ j' =>
      have hx : xs[j']? = some w := by simpa using hj
      have harith : (idx + 1) + j' = idx + (j' + 1) := by omega
      simp only [chunkCueLinesGo, List.getElem?_cons_succ]
      rw [ih (idx + 1) j' w hx, harith]

lemma cueEndTime_mid {chunk : List Word} {h : ℕ} (w : Word) {nw : Word}
    (ns : Option ℚ) (hh : h + 1 < chunk.length) (hnw : chunk[h + 1]? = some nw) :
    cueEndTime chunk h w ns = nw.start := by
  have hne : h ≠ chunk.length - 1 := by omega
  simp [cueEndTime, hne, hnw]

lemma cueEndTime_last_some {chunks : List (List Word)} {ci : ℕ}
    {chunk nc : List Word} {h : ℕ} (w : Word) {nw : Word}
    (hh : h = chunk.length - 1) (hnc : chunks[ci + 1]? = some nc)
    (hnw : nc.head? = some nw) :
    cueEndTime chunk h w (nextChunkStart chunks ci) = nw.start := by
  simp [cueEndTime, hh, nextChunkStart, hnc, hnw]

lemma cueEndTime_last_none {chunks : List (List Word)} {ci : ℕ}
    {chunk : List Word} {h : ℕ} (w : Word)
    (hh : h = chunk.length - 1) (hnc : chunks[ci + 1]? = none) :
    cueEndTime chunk h w (nextChunkStart chunks ci) = w.«end» := by
  simp [cueEndTime, hh, nextChunkStart, hnc]

/-- C1: for the cue emitted for highlighted position h of a chunk, the
emitted dialogue line is built from the highlighted word's start time and
cueEndTime, and the end time is: the start of the chunk's word at h+1
when h is not the last position; the first word's start of the following
chunk when h is last and a following chunk exists; and the word's own end
when no following chunk exists. -/
theorem cue_timing_gap_filling (chunks : List (List Word)) (ci : ℕ)
    (chunk : List Word) (h : ℕ) (w : Word)
    (_hc : chunks[ci]? = some chunk) (hw : chunk[h]? = some w) :
    (chunkCueLines chunk (nextChunkStart chunks ci))[h]? =
      some (dialogueLine chunk h w (nextChunkStart chunks ci)) ∧
    (h + 1 < chunk.length → ∀ nw, chunk[h + 1]? = some nw →
      cueEndTime chunk h w (nextChunkStart chunks ci) = nw.start) ∧
    (h = chunk.length - 1 → ∀ nc nw, chunks[ci + 1]? = some nc → nc.head? = some nw →
      cueEndTime chunk h w (nextChunkStart chunks ci) = nw.start) ∧
    (h = chunk.length - 1 → chunks[ci + 1]? = none →
      cueEndTime chunk h w (nextChunkStart chunks ci) = w.«end») := by
  refine ⟨?_, ?_, ?_, ?_⟩
  · have := chunkCueLinesGo_getElem chunk (nextChunkStart chunks ci) chunk 0 h w hw
    simpa [chunkCueLines] using this
  · intro hlt nw hnw
    exact cueEndTime_mid w _ hlt hnw
  · intro hh nc nw hnc hnw
    exact cueEndTime_last_some w hh hnc hnw
  · intro hh hnone
    exact cueEndTime_last_none w hh hnone

/-- C1 witness: position 1 (the last) of the first sample chunk, whose
cue extends to the start of the second chunk's first word. -/
theorem cue_timing_gap_filling_witness :
    sampleChunks[0]? = some [⟨"alpha", 0, 1⟩, ⟨"bravo", 1, 2⟩] ∧
    ([⟨"alpha", 0, 1⟩, ⟨"bravo", 1, 2⟩] : List Word)[1]? = some ⟨"bravo", 1, 2⟩ ∧
    ((chunkCueLines [⟨"alpha", 0, 1⟩, ⟨"bravo", 1, 2⟩] (nextChunkStart sampleChunks 0))[1]? =
      some (dialogueLine [⟨"alpha", 0, 1⟩, ⟨"bravo", 1, 2⟩] 1 ⟨"bravo", 1, 2⟩
        (nextChunkStart sampleChunks 0)) ∧
    (1 + 1 < ([⟨"alpha", 0, 1⟩, ⟨"bravo", 1, 2⟩] : List Word).length →
      ∀ nw, ([⟨"alpha", 0, 1⟩, ⟨"bravo", 1, 2⟩] : List Word)[1 + 1]? = some nw →
      cueEndTime [⟨"alpha", 0, 1⟩, ⟨"bravo", 1, 2⟩] 1 ⟨"bravo", 1, 2⟩
        (nextChunkStart sampleChunks 0) = nw.start) ∧
    (1 = ([⟨"alpha", 0, 1⟩, ⟨"bravo", 1, 2⟩] : List Word).length - 1 →
      ∀ nc nw, sampleChunks[0 + 1]? = some nc → nc.head? = some nw →
      cueEndTime [⟨"alpha", 0, 1⟩, ⟨"bravo", 1, 2⟩] 1 ⟨"bravo", 1, 2⟩
        (nextChunkStart sampleChunks 0) = nw.start) ∧
    (1 = ([⟨"alpha", 0, 1⟩, ⟨"bravo", 1, 2⟩] : List Word).length - 1 →
      sampleChunks[0 + 1]? = none →
      cueEndTime [⟨"alpha", 0, 1⟩, ⟨"bravo", 1, 2⟩] 1 ⟨"bravo", 1, 2⟩
        (nextChunkStart sampleChunks 0) = Word.«end» ⟨"bravo", 1, 2⟩)) :=
  ⟨rfl, rfl, cue_timing_gap_filling sampleChunks 0 _ 1 _ rfl rfl⟩

lemma cueTextGo_all_plain : ∀ (ws : List Word) (hi idx : ℕ), hi < idx →
    cueTextGo hi idx ws = ws.map renderWordText := by
  intro ws
  induction ws with
  | nil => intro hi idx _; rfl
  | cons x xs ih =>
    intro hi idx hlt
    have hne : idx ≠ hi := by omega
    simp only [cueTextGo, hne, if_false, List.map_cons]
    rw [ih hi (idx + 1) (by omega)]

lemma cueTextGo_split : ∀ (ws : List Word) (j idx : ℕ) (w : Word), ws[j]? = some w →
    cueTextGo (idx + j) idx ws =
      (ws.take j).map renderWordText ++
        (hlOn ++ renderWordText w ++ hlOff) :: (ws.drop (j + 1)).map renderWordText := by
  intro ws
  induction ws with
  | nil => intro j idx w hj; simp at hj
  | cons x xs ih =>
    intro j idx w hj
    cases j with
    | zero =>
      have hx : x = w := by simpa using hj
      subst hx
      simp only [cueTextGo, Nat.add_zero, if_pos rfl]
      rw [cueTextGo_all_plain xs idx (idx + 1) (by omega)]
      simp
    | succ j' =>
      have hx : xs[j']? = some w := by simpa using hj
      have hne : idx ≠ idx + (j' + 1) := by omega
      have harith : idx + (j' + 1) = (idx + 1) + j' := by omega
      simp only [cueTextGo, hne, if_false]
      rw [harith, ih j' (idx + 1) w hx]
      simp

/-- C5: the cue text is the chunk's words each stripped, upper-cased and
joined by single spaces, with exactly the word at the highlighted
position wrapped in the highlight-style toggle before it and the reset
toggle after it; every other word is rendered bare. -/
theorem highlight_singularity (chunk : List Word) (hi : ℕ) (w : Word)
    (hw : chunk[hi]? = some w) :
    cueText chunk hi =
      joinSep " " ((chunk.take hi).map renderWordText ++
        (hlOn ++ renderWordText w ++ hlOff) :: (chunk.drop (hi + 1)).map renderWordText) := by
  have h2 := cueTextGo_split chunk hi 0 w hw
  rw [Nat.zero_add] at h2
  exact congrArg (joinSep " ") h2

/-- C5 witness: highlighting position 0 of the first sample chunk. -/
theorem highlight_singularity_witness :
    ([⟨"alpha", 0, 1⟩, ⟨"bravo", 1, 2⟩] : List Word)[0]? = some ⟨"alpha", 0, 1⟩ ∧
    cueText [⟨"alpha", 0, 1⟩, ⟨"bravo", 1, 2⟩] 0 =
      joinSep " " ((([⟨"alpha", 0, 1⟩, ⟨"bravo", 1, 2⟩] : List Word).take 0).map renderWordText ++
        (hlOn ++ renderWordText ⟨"alpha", 0, 1⟩ ++ hlOff) ::
          (([⟨"alpha", 0, 1⟩, ⟨"bravo", 1, 2⟩] : List Word).drop (0 + 1)).map renderWordText) :=
  ⟨rfl, highlight_singularity _ 0 _ rfl⟩

lemma flatten_decomp {chunks : List (List Word)} {ci : ℕ} {chunk : List Word}
    (hc : chunks[ci]? = some chunk) :
    chunks.flatten =
      (chunks.take ci).flatten ++ chunk ++ (chunks.drop (ci + 1)).flatten := by
  obtain ⟨hci, hgetc⟩ := List.getElem?_eq_some.mp hc
  conv_lhs => rw [← List.take_append_drop ci chunks]
  rw [List.drop_eq_getElem_cons hci, hgetc]
  simp [List.flatten_append, List.flatten_cons, List.append_assoc]

lemma nextChunkStart_eq_some {chunks : List (List Word)} {ci : ℕ} {t : ℚ}
    (hns : nextChunkStart chunks ci = some t) :
    ∃ nc, chunks[ci + 1]? = some nc ∧ ∃ nw, nc.head? = some nw ∧ t = nw.start := by
  unfold nextChunkStart at hns
  cases hnc : chunks[ci + 1]? with
  | none => rw [hnc] at hns; simp at hns
  | some nc =>
    cases hnw : nc.head? with
    | none => rw [hnc] at hns; simp [hnw] at hns
    | some nw =>
      rw [hnc] at hns
      simp [hnw] at hns
      exact ⟨nc, rfl, nw, hnw, hns.symm⟩

/-- C4: assuming every word satisfies start ≤ end and the flattened word
sequence is non-decreasing by start, every cue satisfies start ≤ end, and
a zero-duration cue occurs only when the highlighted word's start
coincides with its extension target: the successor word's start, or its
own end for the final word overall. -/
theorem monotonic_cue_timing (chunks : List (List Word))
    (hwe : ∀ w ∈ chunks.flatten, w.start ≤ w.«end»)
    (hsorted : chunks.flatten.Pairwise (fun u v => u.start ≤ v.start))
    (ci : ℕ) (chunk : List Word) (h : ℕ) (w : Word)
    (hc : chunks[ci]? = some chunk) (hw : chunk[h]? = some w) :
    w.start ≤ cueEndTime chunk h w (nextChunkStart chunks ci) ∧
    (cueEndTime chunk h w (nextChunkStart chunks ci) = w.start →
      ((h + 1 < chunk.length → ∀ nw, chunk[h + 1]? = some nw → nw.start = w.start) ∧
       (h = chunk.length - 1 → ∀ nc nw, chunks[ci + 1]? = some nc →
         nc.head? = some nw → nw.start = w.start) ∧
       (h = chunk.length - 1 → chunks[ci + 1]? = none → w.«end» = w.start))) := by
  obtain ⟨hlen, hget⟩ := List.getElem?_eq_some.mp hw
  have hmem_w_chunk : w ∈ chunk := List.getElem?_mem hw
  have hchunk_mem : chunk ∈ chunks := List.getElem?_mem hc
  have hw_flat : w ∈ chunks.flatten := List.mem_flatten.mpr ⟨chunk, hchunk_mem, hmem_w_chunk⟩
  have hwe_w : w.start ≤ w.«end» := hwe w hw_flat
  by_cases hlast : h = chunk.length - 1
  · cases hns : nextChunkStart chunks ci with
    | none =>
      have heq : cueEndTime chunk h w none = w.«end» := by
        simp [cueEndTime, hlast]
      refine ⟨heq ▸ hwe_w, ?_⟩
      intro hzero
      refine ⟨?_, ?_, ?_⟩
      · intro hlt
        exfalso; omega
      · intro _ nc nw hnc hnw
        exfalso
        rw [nextChunkStart, hnc] at hns
        simp [hnw] at hns
      · intro _ _
        rw [heq] at hzero; exact hzero
    | some t =>
      obtain ⟨nc, hnc, nw, hnw, ht⟩ := nextChunkStart_eq_some hns
      have heq : cueEndTime chunk h w (some t) = nw.start := by
        simp [cueEndTime, hlast, ht]
      have hnc_mem : nc ∈ chunks.drop (ci + 1) := by
        apply List.getElem?_mem (n := 0)
        rw [List.getElem?_drop]
        simpa using hnc
      have hnw_mem : nw ∈ (chunks.drop (ci + 1)).flatten :=
        List.mem_flatten.mpr ⟨nc, hnc_mem, List.mem_of_mem_head? (by simp [hnw])⟩
      have hle : w.start ≤ nw.start := by
        rw [flatten_decomp hc] at hsorted
        have hcross := (List.pairwise_append.mp hsorted).2.2
        exact hcross w (List.mem_append.mpr (Or.inr hmem_w_chunk)) nw hnw_mem
      refine ⟨heq ▸ hle, ?_⟩
      intro hzero
      rw [heq] at hzero
      refine ⟨?_, ?_, ?_⟩
      · intro hlt
        exfalso; omega
      · intro _ nc' nw' hnc' hnw'
        rw [hnc] at hnc'
        have hcc : nc = nc' := by injection hnc'
        subst hcc
        rw [hnw] at hnw'
        have hww : nw = nw' := by injection hnw'
        subst hww
        exact hzero
      · intro _ hnone
        rw [hnone] at hnc
        exact absurd hnc (by simp)
  · have hlt : h + 1 < chunk.length := by omega
    obtain ⟨p2, hnw⟩ : ∃ p : h + 1 < chunk.length, chunk[h + 1]? = some (chunk.get ⟨h + 1, p⟩) :=
      ⟨hlt, List.getElem?_eq_getElem hlt⟩
    have heq : cueEndTime chunk h w (nextChunkStart chunks ci) = (chunk.get ⟨h + 1, p2⟩).start :=
      cueEndTime_mid w _ hlt hnw
    have hpw_chunk : chunk.Pairwise (fun u v => u.start ≤ v.start) :=
      List.Pairwise.sublist (List.sublist_flatten_of_mem hchunk_mem) hsorted
    have hdrop : chunk.drop h = w :: chunk.get ⟨h + 1, p2⟩ :: chunk.drop (h + 2) := by
      rw [List.drop_eq_getElem_cons hlen, hget, List.drop_eq_getElem_cons p2]
      rfl
    have hpw_drop : (chunk.drop h).Pairwise (fun u v => u.start ≤ v.start) :=
      List.Pairwise.sublist (List.drop_sublist h chunk) hpw_chunk
    rw [hdrop] at hpw_drop
    have hle : w.start ≤ (chunk.get ⟨h + 1, p2⟩).start :=
      (List.pairwise_cons.mp hpw_drop).1 _ (List.mem_cons_self _ _)
    refine ⟨heq ▸ hle, ?_⟩
    intro hzero
    rw [heq] at hzero
    refine ⟨?_, ?_, ?_⟩
    · intro _ nw' hnw'
      rw [hnw] at hnw'
      have hww : chunk.get ⟨h + 1, p2⟩ = nw' := by injection hnw'
      subst hww
      exact hzero
    · intro hlast'
      exact absurd hlast' hlast
    · intro hlast'
      exact absurd hlast' hlast

/-- C4 witness: the last position of the first sample chunk, with the
sample words time-ordered and well-formed. -/
theorem monotonic_cue_timing_witness :
    (∀ w ∈ sampleChunks.flatten, w.start ≤ w.«end») ∧
    sampleChunks.flatten.Pairwise (fun u v => u.start ≤ v.start) ∧
    sampleChunks[0]? = some [⟨"alpha", 0, 1⟩, ⟨"bravo", 1, 2⟩] ∧
    ([⟨"alpha", 0, 1⟩, ⟨"bravo", 1, 2⟩] : List Word)[1]? = some ⟨"bravo", 1, 2⟩ ∧
    ((⟨"bravo", 1, 2⟩ : Word).start ≤
        cueEndTime [⟨"alpha", 0, 1⟩, ⟨"bravo", 1, 2⟩] 1 ⟨"bravo", 1, 2⟩
          (nextChunkStart sampleChunks 0) ∧
      (cueEndTime [⟨"alpha", 0, 1⟩, ⟨"bravo", 1, 2⟩] 1 ⟨"bravo", 1, 2⟩
          (nextChunkStart sampleChunks 0) = (⟨"bravo", 1, 2⟩ : Word).start →
        ((1 + 1 < ([⟨"alpha", 0, 1⟩, ⟨"bravo", 1, 2⟩] : List Word).length →
            ∀ nw, ([⟨"alpha", 0, 1⟩, ⟨"bravo", 1, 2⟩] : List Word)[1 + 1]? = some nw →
              nw.start = (⟨"bravo", 1, 2⟩ : Word).start) ∧
         (1 = ([⟨"alpha", 0, 1⟩, ⟨"bravo", 1, 2⟩] : List Word).length - 1 →
            ∀ nc nw, sampleChunks[0 + 1]? = some nc → nc.head? = some nw →
              nw.start = (⟨"bravo", 1, 2⟩ : Word).start) ∧
         (1 = ([⟨"alpha", 0, 1⟩, ⟨"bravo", 1, 2⟩] : List Word).length - 1 →
            sampleChunks[0 + 1]? = none →
              Word.«end» ⟨"bravo", 1, 2⟩ = (⟨"bravo", 1, 2⟩ : Word).start)))) := by
  have h1 : ∀ w ∈ sampleChunks.flatten, w.start ≤ w.«end» := by decide
  have h2 : sampleChunks.flatten.Pairwise (fun u v => u.start ≤ v.start) := by decide
  exact ⟨h1, h2, rfl, rfl,
    monotonic_cue_timing sampleChunks h1 h2 0 _ 1 _ rfl rfl⟩

lemma chunksGo_congr (a b : ℕ) (w : List Word) {d1 d2 : ℕ → ℕ}
    (hd : ∀ k, d1 k = d2 k) :
    ∀ (fuel i k : ℕ) (acc : List (List Word)),
      chunksGo d1 a b w fuel i k acc = chunksGo d2 a b w fuel i k acc := by
  intro fuel
  induction fuel with
  | zero => intro i k acc; rfl
  | succ fuel ih =>
    intro i k acc
    by_cases h : i < w.length
    · simp only [chunksGo, h, if_true, hd k]
      cases randint a b (d2 k) with
      | none => rfl
      | some size => exact ih (i + size) (k + 1) _
    · simp [chunksGo, h]

/-- C8: with the random draws made explicit, create_ass_file is a pure
function of the word list, the configuration and the draw stream: two
runs with identical inputs and extensionally equal draw streams produce
identical document output. -/
theorem render_deterministic (words : List Word) (cfg : StyleConfig) (a b : ℕ)
    (d1 d2 : ℕ → ℕ) (hd : ∀ k, d1 k = d2 k) :
    createAssFile words cfg a b d1 = createAssFile words cfg a b d2 := by
  unfold createAssFile chunkWords
  rw [chunksGo_congr a b (cleanWords words) hd]

/-- C8 witness: two syntactically different but extensionally equal draw
streams give byte-identical output on the sample input. -/
theorem render_deterministic_witness :
    (∀ k : ℕ, (fun _ : ℕ => 2) k = (fun n : ℕ => 2 + 0 * n) k) ∧
    createAssFile sampleWords sampleCfg 2 3 (fun _ => 2) =
      createAssFile sampleWords sampleCfg 2 3 (fun n => 2 + 0 * n) :=
  ⟨fun k => by norm_num,
   render_deterministic sampleWords sampleCfg 2 3 _ _ (fun k => by norm_num)⟩

lemma take_set_of_le {α : Type} (l : List α) (i : ℕ) (x : α) {N : ℕ} (h : N ≤ i) :
    (l.set i x).take N = l.take N := by
  apply List.ext_getElem?
  intro n
  rw [List.getElem?_take, List.getElem?_take]
  by_cases hn : n < N
  · rw [if_pos hn, if_pos hn, List.getElem?_set_ne (by omega)]
  · rw [if_neg hn, if_neg hn]

lemma getLastD_mem_of_ne_nil {l : List ℕ} (h : l ≠ []) : l.getLastD 0 ∈ l := by
  rw [List.getLastD_eq_getLast? 0 l, List.getLast?_eq_getLast l h]
  exact List.getLast_mem h

lemma cleanWordsHeapGo_frame :
    ∀ (input : List ℕ) (store : List Word) (cleaned : List ℕ) (N : ℕ),
      N ≤ store.length → (∀ c ∈ cleaned, N ≤ c ∧ c < store.length) →
      ((cleanWordsHeapGo store input cleaned).1).take N = store.take N := by
  intro input
  induction input with
  | nil => intro store cleaned N _ _; rfl
  | cons a rest ih =>
    intro store cleaned N hN hcl
    simp only [cleanWordsHeapGo]
    by_cases h1 : pyStrip (store.getD a defaultWord).word = ""
    · rw [if_pos h1]
      exact ih store cleaned N hN hcl
    · rw [if_neg h1]
      by_cases h2 : strFront (pyStrip (store.getD a defaultWord).word) ∈ punctuationStarters ∧
          cleaned ≠ []
      · rw [if_pos h2]
        have haddr := hcl (cleaned.getLastD 0) (getLastD_mem_of_ne_nil h2.2)
        rw [ih _ cleaned N (by rw [List.length_set]; exact hN)
          (fun c hc => by rw [List.length_set]; exact hcl c hc)]
        exact take_set_of_le store _ _ haddr.1
      · rw [if_neg h2]
        by_cases h3 : cleaned ≠ [] ∧
            strEndsWith (pyRStrip (store.getD (cleaned.getLastD 0) defaultWord).word) "$" = true ∧
            ((strFront (pyStrip (store.getD a defaultWord).word)).isDigit = true ∨
              strFront (pyStrip (store.getD a defaultWord).word) ∈ punctuationStarters)
        · rw [if_pos h3]
          have haddr := hcl (cleaned.getLastD 0) (getLastD_mem_of_ne_nil h3.1)
          rw [ih _ cleaned N (by rw [List.length_set]; exact hN)
            (fun c hc => by rw [List.length_set]; exact hcl c hc)]
          exact take_set_of_le store _ _ haddr.1
        · rw [if_neg h3]
          rw [ih _ (cleaned ++ [store.length]) N
            (by rw [List.length_append]; omega)
            (by
              intro c hc
              rw [List.length_append]
              rcases List.mem_append.mp hc with hcin | hcnew
              · have := hcl c hcin
                simp only [List.length_cons, List.length_nil]
                omega
              · simp only [List.mem_singleton] at hcnew
                subst hcnew
                simp only [List.length_cons, List.length_nil]
                omega)]
          exact List.take_append_of_le_length hN

/-- C9: clean_words never mutates its input: running the heap model with
the caller's records at addresses 0..n-1 leaves every one of those
records unchanged, because each accepted word is appended as a copy at a
fresh address and the in-place merges write only through those fresh
addresses. -/
theorem clean_words_no_mutation (words : List Word) :
    ((cleanWordsHeap words).1).take words.length = words := by
  have hframe := cleanWordsHeapGo_frame (List.range words.length) words []
    words.length (le_refl _) (by intro c hc; simp at hc)
  rw [cleanWordsHeap, hframe, List.take_length]

/-- C2 counterexample: on the spec's own currency scenario input, the
normalizer does not produce the claimed three-word sequence (the token
000 is not merged, because the previously accepted word is by then
the string dollar-one-comma, which does not end with the dollar sign). -/
theorem currency_merge_counterexample :
    cleanWords c2Input ≠
      [⟨"the", 0, 3/10⟩, ⟨"$1,000", 3/10, 7/10⟩, ⟨"fee", 4/5, 1⟩] := by
  intro hcontra
  have h4 : (cleanWords c2Input).length = 4 := rfl
  rw [hcontra] at h4
  simp at h4

/-- C2 amended: the normalizer merges the dollar sign, the digit 1 and
the comma into one word spanning 0.3-0.5, leaves 000 as its own word,
and the output is the four-word sequence the, dollar-one-comma, 000, fee. -/
theorem currency_merge_amended :
    cleanWords c2Input =
      [⟨"the", 0, 3/10⟩, ⟨"$1,", 3/10, 1/2⟩, ⟨"000", 1/2, 7/10⟩, ⟨"fee", 4/5, 1⟩] :=
  rfl

/-- C7 counterexample: with chunk_size_min = 2 > 1 = chunk_size_max and a
one-word input, create_ass_file does not fail before producing output:
the full header has been written (and the words cleaned) by the time the
chunk-size draw raises ValueError. -/
theorem invalid_config_counterexample :
    createAssFile [⟨"hello", 0, 1⟩] sampleCfg 2 1 (fun _ => 0) =
      (headerLines sampleCfg, some RunError.valueError) ∧
    (createAssFile [⟨"hello", 0, 1⟩] sampleCfg 2 1 (fun _ => 0)).1 ≠ [] :=
  ⟨rfl, by decide⟩

/-- C7 amended: create_ass_file performs no configuration validation.
When chunk_size_min > chunk_size_max and at least one word survives
cleaning, the run writes the complete header, styles and events-format
lines and cleans the words, and only then the first chunk-size draw
raises ValueError; nothing is validated before processing. -/
theorem invalid_config_no_fail_fast (words : List Word) (cfg : StyleConfig)
    (a b : ℕ) (d : ℕ → ℕ) (hne : cleanWords words ≠ []) (hba : b < a) :
    createAssFile words cfg a b d = (headerLines cfg, some RunError.valueError) := by
  have hwne : words ≠ [] := by
    intro hnil
    subst hnil
    simp [cleanWords] at hne
  have hlen : 0 < (cleanWords words).length := List.length_pos.mpr hne
  have hchunk : chunkWords d a b (cleanWords words) = ChunkOut.err := by
    unfold chunkWords
    obtain ⟨n, hn⟩ : ∃ n, (cleanWords words).length = n + 1 :=
      ⟨(cleanWords words).length - 1, by omega⟩
    rw [hn]
    simp only [chunksGo]
    rw [if_pos (by omega : 0 < (cleanWords words).length)]
    simp [randint, hba]
  unfold createAssFile
  rw [if_neg hwne, hchunk]

/-- C7 amended witness: a concrete run with bounds (2, 1) and one word. -/
theorem invalid_config_no_fail_fast_witness :
    cleanWords [⟨"hi", 0, 1⟩] ≠ [] ∧ 1 < 2 ∧
    createAssFile [⟨"hi", 0, 1⟩] sampleCfg 2 1 (fun _ => 5) =
      (headerLines sampleCfg, some RunError.valueError) :=
  ⟨by decide, by omega,
   invalid_config_no_fail_fast [⟨"hi", 0, 1⟩] sampleCfg 2 1 (fun _ => 5)
     (by decide) (by omega)⟩

lemma natRepr_len_le_60 : ∀ n : ℕ, n ≤ 60 →
    1 ≤ (Nat.repr n).length ∧ (Nat.repr n).length ≤ 2 := by decide

lemma natRepr_len_lt_100 : ∀ n : ℕ, n < 100 →
    1 ≤ (Nat.repr n).length ∧ (Nat.repr n).length ≤ 2 := by decide

lemma intRepr_nonneg {n : ℤ} (h : 0 ≤ n) : Int.repr n = Nat.repr n.toNat := by
  obtain ⟨m, rfl⟩ := Int.eq_ofNat_of_zero_le h
  rfl

lemma zfill_length (n : ℕ) (s : String) : (zfill n s).length = max n s.length := by
  show (List.replicate (n - s.length) '0' ++ s.data).length = max n s.length
  rw [List.length_append, List.length_replicate]
  have hd : s.data.length = s.length := rfl
  omega

lemma zfill_five_dot (x y : String) (hy : y.length = 2) :
    zfill 5 (x ++ "." ++ y) = zfill 2 x ++ "." ++ y := by
  apply String.ext
  have h53 : 5 - (x ++ "." ++ y).length = 2 - x.length := by
    rw [String.length_append, String.length_append, hy]
    have hdot : ".".length = 1 := rfl
    omega
  show List.replicate (5 - (x ++ "." ++ y).length) '0' ++ (x ++ "." ++ y).data =
      (zfill 2 x ++ "." ++ y).data
  rw [h53]
  simp only [String.data_append]
  show List.replicate (2 - x.length) '0' ++ (x.data ++ ".".data ++ y.data) =
      (List.replicate (2 - x.length) '0' ++ x.data) ++ ".".data ++ y.data
  simp [List.append_assoc]

lemma formatTimeAss_eq (q : ℚ) :
    formatTimeAss q =
      Int.repr ⌊q / 3600⌋ ++ ":" ++
        zfill 2 (Int.repr ⌊(q - 3600 * ((⌊q / 3600⌋ : ℤ) : ℚ)) / 60⌋) ++ ":" ++
        zfill 5 (Int.repr (round (100 * (q - 60 * ((⌊q / 60⌋ : ℤ) : ℚ))) / 100) ++ "." ++
          zfill 2 (Int.repr (round (100 * (q - 60 * ((⌊q / 60⌋ : ℤ) : ℚ))) % 100))) := rfl

lemma time_fields_shape (M cs : ℤ) (hstr : String)
    (hm0 : 0 ≤ M) (hm60 : M < 60) (hcs0 : 0 ≤ cs) (hcs6000 : cs ≤ 6000) :
    ∃ mp ip fp : String,
      hstr ++ ":" ++ zfill 2 (Int.repr M) ++ ":" ++
        zfill 5 (Int.repr (cs / 100) ++ "." ++ zfill 2 (Int.repr (cs % 100))) =
        hstr ++ ":" ++ mp ++ ":" ++ ip ++ "." ++ fp ∧
      mp.length = 2 ∧ ip.length = 2 ∧ fp.length = 2 := by
  have hdiv0 : 0 ≤ cs / 100 := Int.ediv_nonneg hcs0 (by norm_num)
  have hdiv60 : cs / 100 ≤ 60 := by
    have h1 := Int.ediv_le_ediv (by norm_num : (0:ℤ) < 100) hcs6000
    have h2 : (6000:ℤ) / 100 = 60 := by decide
    omega
  have hmod0 : 0 ≤ cs % 100 := Int.emod_nonneg cs (by norm_num)
  have hmod100 : cs % 100 < 100 := Int.emod_lt_of_pos cs (by norm_num)
  have hmrep := natRepr_len_le_60 M.toNat (by omega)
  have hdivrep := natRepr_len_le_60 (cs / 100).toNat (by omega)
  have hmodrep := natRepr_len_lt_100 (cs % 100).toNat (by omega)
  have hfp_len : (zfill 2 (Int.repr (cs % 100))).length = 2 := by
    rw [intRepr_nonneg hmod0, zfill_length]
    omega
  have hmp_len : (zfill 2 (Int.repr M)).length = 2 := by
    rw [intRepr_nonneg hm0, zfill_length]
    omega
  have hip_len : (zfill 2 (Int.repr (cs / 100))).length = 2 := by
    rw [intRepr_nonneg hdiv0, zfill_length]
    omega
  refine ⟨zfill 2 (Int.repr M), zfill 2 (Int.repr (cs / 100)),
    zfill 2 (Int.repr (cs % 100)), ?_, hmp_len, hip_len, hfp_len⟩
  rw [zfill_five_dot _ _ hfp_len]
  simp [String.append_assoc]

/-- C6: for every non-negative seconds value, format_time_ass renders the
time in fixed H:MM:SS.CC form: hours as the unpadded decimal of the hour
count, minutes zero-padded to 2 digits, seconds zero-padded to 2 digits
with exactly 2 decimal places; and the duplicated implementation of
format_time_ass in src/subtitle_service.py produces the same string. -/
theorem format_time_shape (q : ℚ) (_hq : 0 ≤ q) :
    ∃ mp ip fp : String,
      formatTimeAss q = Int.repr ⌊q / 3600⌋ ++ ":" ++ mp ++ ":" ++ ip ++ "." ++ fp ∧
      mp.length = 2 ∧ ip.length = 2 ∧ fp.length = 2 ∧
      formatTimeAssService q = formatTimeAss q := by
  have hf1 : ((⌊q / 3600⌋ : ℤ) : ℚ) ≤ q / 3600 := Int.floor_le _
  have hf2 : q / 3600 < (⌊q / 3600⌋ : ℚ) + 1 := Int.lt_floor_add_one _
  have hqdiv : q / 3600 * 3600 = q := div_mul_cancel₀ q (by norm_num)
  have hr0 : 0 ≤ q - 3600 * ((⌊q / 3600⌋ : ℤ) : ℚ) := by nlinarith
  have hr1 : q - 3600 * ((⌊q / 3600⌋ : ℤ) : ℚ) < 3600 := by nlinarith
  have hm0 : 0 ≤ ⌊(q - 3600 * ((⌊q / 3600⌋ : ℤ) : ℚ)) / 60⌋ := by
    apply Int.le_floor.mpr
    push_cast
    exact div_nonneg hr0 (by norm_num)
  have hm60 : ⌊(q - 3600 * ((⌊q / 3600⌋ : ℤ) : ℚ)) / 60⌋ < 60 := by
    apply Int.floor_lt.mpr
    push_cast
    rw [div_lt_iff₀ (by norm_num : (0:ℚ) < 60)]
    nlinarith
  have hg1 : ((⌊q / 60⌋ : ℤ) : ℚ) ≤ q / 60 := Int.floor_le _
  have hg2 : q / 60 < (⌊q / 60⌋ : ℚ) + 1 := Int.lt_floor_add_one _
  have hqdiv60 : q / 60 * 60 = q := div_mul_cancel₀ q (by norm_num)
  have hs0 : 0 ≤ q - 60 * ((⌊q / 60⌋ : ℤ) : ℚ) := by nlinarith
  have hs60 : q - 60 * ((⌊q / 60⌋ : ℤ) : ℚ) < 60 := by nlinarith
  have hcs0 : 0 ≤ round (100 * (q - 60 * ((⌊q / 60⌋ : ℤ) : ℚ))) := by
    rw [round_eq]
    apply Int.le_floor.mpr
    push_cast
    nlinarith
  have hcs6000 : round (100 * (q - 60 * ((⌊q / 60⌋ : ℤ) : ℚ))) ≤ 6000 := by
    rw [round_eq]
    have hlt : ⌊100 * (q - 60 * ((⌊q / 60⌋ : ℤ) : ℚ)) + 1 / 2⌋ < 6001 := by
      apply Int.floor_lt.mpr
      push_cast
      nlinarith
    omega
  obtain ⟨mp, ip, fp, heq, h1, h2, h3⟩ :=
    time_fields_shape ⌊(q - 3600 * ((⌊q / 3600⌋ : ℤ) : ℚ)) / 60⌋
      (round (100 * (q - 60 * ((⌊q / 60⌋ : ℤ) : ℚ)))) (Int.repr ⌊q / 3600⌋)
      hm0 hm60 hcs0 hcs6000
  refine ⟨mp, ip, fp, ?_, h1, h2, h3, rfl⟩
  rw [formatTimeAss_eq q, heq]

/-- C6 witness: the shape holds at 2 seconds. -/
theorem format_time_shape_witness :
    (0:ℚ) ≤ 2 ∧
    ∃ mp ip fp : String,
      formatTimeAss 2 = Int.repr ⌊(2:ℚ) / 3600⌋ ++ ":" ++ mp ++ ":" ++ ip ++ "." ++ fp ∧
      mp.length = 2 ∧ ip.length = 2 ∧ fp.length = 2 ∧
      formatTimeAssService 2 = formatTimeAss 2 :=
  ⟨by norm_num, format_time_shape 2 (by norm_num)⟩
